import Mathlib

/-
Shallow embedding of the Templatar template-replacement engine
(src/index.js, class Templatar).

Strings are modelled as `List Char`; JavaScript runtime values as the
inductive `JsVal` (numbers restricted to integers, which covers every
numeric value the specification exercises).  The `replace` method is a
single scan of the template for spans of the compiled matcher
`escapedStart ([\w\W]+?) escapedEnd`; the scan is modelled by
`engineAux`, a fuel-indexed structural recursion whose fuel is fixed to
the template length (each step consumes at least one character, so the
fallback branch at fuel 0 is unreachable for that choice of fuel).
Errors thrown by the JavaScript code become `Except.error` values.

The external collaborator `getProperty` from the dot-prop package is
embedded from its documented contract (resolve a dotted path against a
nested structure, or return the caller-supplied fallback), and
`util.inspect` from Node is embedded as a bounded-depth structural
pretty-printer; neither is code of this repository.
-/

namespace Templatar

/-- JavaScript-like runtime values. Numbers are modelled as integers. -/
inductive JsVal where
  | undefined
  | null
  | bool (b : Bool)
  | num (n : Int)
  | str (s : List Char)
  | obj (fields : List (List Char × JsVal))
  | arr (elems : List JsVal)

/-- The three errors `replace` can throw (src/index.js lines 22-28 and 43-47).
`missingKey` carries the trimmed key named in the thrown message. -/
inductive JsErr where
  | invalidTemplate
  | invalidData
  | missingKey (k : List Char)
  deriving DecidableEq

/-- The object literal passed to the transform hook
(`{ value, defaultVal, key: trimmedKey }`, src/index.js line 58). -/
structure TransformArg where
  value : JsVal
  defaultVal : JsVal
  key : List Char

/-- Engine configuration fixed at construction (src/index.js lines 12-19). -/
structure Config where
  starting : List Char
  closing : List Char
  ignoreMissing : Bool
  transform : TransformArg → JsVal

/-- JavaScript `x || d` defaulting for an optional delimiter string: both a
missing option and the empty string (falsy) fall back to the default. -/
def orFalsy (v : Option (List Char)) (d : List Char) : List Char :=
  match v with
  | none => d
  | some s => if s = [] then d else s

/-- The constructor `new Templatar(options)` (src/index.js lines 12-19). -/
def mkConfig (startOpt closeOpt : Option (List Char)) (ignoreMissing : Bool)
    (transform : TransformArg → JsVal) : Config :=
  { starting := orFalsy startOpt ['<', '{']
    closing := orFalsy closeOpt ['}', '>']
    ignoreMissing := ignoreMissing
    transform := transform }

/-- The default configuration: delimiters `<{` / `}>`, `ignoreMissing` false,
identity transform (src/index.js lines 13-18). -/
def defaultConfig : Config :=
  { starting := ['<', '{']
    closing := ['}', '>']
    ignoreMissing := false
    transform := fun a => a.value }

/-- JavaScript `typeof template === 'string'` test (src/index.js line 22). -/
def isStr : JsVal → Bool
  | .str _ => true
  | _ => false

/-- JavaScript `typeof data === 'object' && data !== null`
(the negation of the check on src/index.js line 26): objects and arrays
pass, `null` and every non-object value fail. -/
def jsIsObject : JsVal → Bool
  | .obj _ => true
  | .arr _ => true
  | _ => false

/-- Whitespace removed by JavaScript `String.prototype.trim` (the ASCII
white-space characters; the claims exercise no exotic Unicode spaces). -/
def isJsSpace (c : Char) : Bool :=
  c = ' ' || c = '\t' || c = '\n' || c = '\r' || c = '\x0b' || c = '\x0c'

/-- JavaScript `key.trim()` (src/index.js line 37). -/
def jsTrim (s : List Char) : List Char :=
  ((s.dropWhile isJsSpace).reverse.dropWhile isJsSpace).reverse

/-- Split a path on `.` into its segments (dot-prop's dotted-path syntax). -/
def splitDots : List Char → List (List Char)
  | [] => [[]]
  | c :: rest =>
    if c = '.' then [] :: splitDots rest
    else
      match splitDots rest with
      | p :: ps => (c :: p) :: ps
      | [] => [[c]]

/-- Look a key up in the field list of an object value. -/
def lookupField (fields : List (List Char × JsVal)) (k : List Char) : Option JsVal :=
  match fields with
  | [] => none
  | (k', v) :: rest => if k' = k then some v else lookupField rest k

/-- Walk a segment list through nested objects; any step that is not a
present object field yields `undefined`. -/
def getPath : JsVal → List (List Char) → JsVal
  | v, [] => v
  | .obj fs, k :: ks =>
    match lookupField fs k with
    | some v => getPath v ks
    | none => .undefined
  | _, _ :: _ => .undefined

/-- Modelled from the dependency contract of dot-prop's `getProperty`
(an external package, not repository code): resolve a dotted path against
the nested structure, returning the fallback verbatim when the path does
not resolve to a defined value (src/index.js line 40). -/
def getProperty (data : JsVal) (path : List Char) (fallback : JsVal) : JsVal :=
  match getPath data (splitDots path) with
  | .undefined => fallback
  | v => v

/-- The first occurrence of the separator `||` in a string: JavaScript
`split('||')` cuts at the leftmost occurrence and continues on the
remainder.  Returns the text before and after that first occurrence, or
`none` when `||` does not occur. -/
def splitFirstBars : List Char → Option (List Char × List Char)
  | [] => none
  | [_] => none
  | c :: c' :: rest =>
    if c = '|' ∧ c' = '|' then some ([], rest)
    else (splitFirstBars (c' :: rest)).map (fun p => (c :: p.1, p.2))

/-- The destructuring `const [key, defaultVal] = keyStr.split('||')`
(src/index.js line 36): JavaScript `split` cuts at every occurrence of
`||`, and the destructuring keeps only the first two pieces, so `key` is
the text before the first occurrence and `defaultVal` is the text
between the first and second occurrences (or everything after the first
when there is no second). -/
def parseKeyDefault (keyStr : List Char) : List Char × Option (List Char) :=
  match splitFirstBars keyStr with
  | none => (keyStr, none)
  | some (a, b) =>
    match splitFirstBars b with
    | none => (a, some b)
    | some (b1, _) => (a, some b1)

/-- The trimmed lookup key of a raw key expression (src/index.js line 37). -/
def trimmedKeyOf (keyStr : List Char) : List Char :=
  jsTrim (parseKeyDefault keyStr).1

/-- The `defaultVal` of a raw key expression as a JavaScript value:
`undefined` when no `||` occurs, otherwise the extracted string. -/
def defaultOf (keyStr : List Char) : JsVal :=
  match (parseKeyDefault keyStr).2 with
  | none => .undefined
  | some d => .str d

/-- The resolved value of one placeholder:
`getProperty(data, trimmedKey, defaultVal)` (src/index.js line 40). -/
def resolvesVal (data : JsVal) (keyStr : List Char) : JsVal :=
  getProperty data (trimmedKeyOf keyStr) (defaultOf keyStr)

/-- Test for the JavaScript value `undefined`. -/
def isUndefined : JsVal → Bool
  | .undefined => true
  | _ => false

mutual

/-- One array element under `Array.prototype.join`: `null` and
`undefined` coerce to the empty string, every other value as under
`String(...)`. -/
def jsArrElem : JsVal → List Char
  | .undefined => []
  | .null => []
  | .bool b => if b then "true".data else "false".data
  | .num n => (toString n).data
  | .str s => s
  | .obj _ => "[object Object]".data
  | .arr xs => jsArrJoin xs

/-- JavaScript `Array.prototype.toString`: the elements coerced and
joined with commas. -/
def jsArrJoin : List JsVal → List Char
  | [] => []
  | [v] => jsArrElem v
  | v :: rest => jsArrElem v ++ ',' :: jsArrJoin rest

end

/-- JavaScript `String(v)` (src/index.js lines 55 and 58). -/
def jsStringCoerce : JsVal → List Char
  | .undefined => "undefined".data
  | .null => "null".data
  | .bool b => if b then "true".data else "false".data
  | .num n => (toString n).data
  | .str s => s
  | .obj _ => "[object Object]".data
  | .arr xs => jsArrJoin xs

/-- Modelled from the documented behaviour of Node's `util.inspect`
(an external module, not repository code): a deterministic textual dump
of nested structure, recursing only while the depth counter is positive
and printing `[Object]` / `[Array]` below the bound
(src/index.js line 51, `util.inspect(value, { depth: 4 })`). -/
def inspectVal : Nat → JsVal → List Char
  | _, .undefined => "undefined".data
  | _, .null => "null".data
  | _, .bool b => if b then "true".data else "false".data
  | _, .num n => (toString n).data
  | _, .str s => '\'' :: (s ++ ['\''])
  | 0, .obj _ => "[Object]".data
  | 0, .arr _ => "[Array]".data
  | d + 1, .obj fs =>
    match fs with
    | [] => ['{', '}']
    | _ =>
      ['{', ' '] ++
        List.intercalate [',', ' ']
          (fs.map fun kv => kv.1 ++ [':', ' '] ++ inspectVal d kv.2) ++
        [' ', '}']
  | d + 1, .arr xs =>
    match xs with
    | [] => ['[', ']']
    | _ =>
      ['[', ' '] ++ List.intercalate [',', ' '] (xs.map (inspectVal d)) ++ [' ', ']']

/-- The value normalization before the transform hook
(src/index.js lines 49-56): values of JavaScript typeof `object`
(objects, arrays, and `null`) are rendered with `util.inspect` at depth
4; strings pass through; every other value goes through `String(...)`. -/
def normalizeValue : JsVal → List Char
  | .null => inspectVal 4 .null
  | .obj fs => inspectVal 4 (.obj fs)
  | .arr xs => inspectVal 4 (.arr xs)
  | .str s => s
  | .undefined => jsStringCoerce .undefined
  | .bool b => jsStringCoerce (.bool b)
  | .num n => jsStringCoerce (.num n)

/-- The body of the per-match callback (src/index.js lines 36-58): parse
the raw key expression, resolve it, throw on an undefined result unless
`ignoreMissing`, normalize, invoke the transform hook, and coerce its
result to a string. -/
def processMatch (cfg : Config) (data : JsVal) (keyStr : List Char) :
    Except JsErr (List Char) :=
  let value := resolvesVal data keyStr
  if isUndefined value && !cfg.ignoreMissing then
    .error (.missingKey (trimmedKeyOf keyStr))
  else
    .ok (jsStringCoerce (cfg.transform
      ⟨.str (normalizeValue value), defaultOf keyStr, trimmedKeyOf keyStr⟩))

/-- Does the literal pattern `pat` occur at position `i` of `s`? -/
def litAt (s : List Char) (i : Nat) (pat : List Char) : Bool :=
  decide ((s.drop i).take pat.length = pat)

/-- The smallest position `j` with `i ≤ j < i + fuel` at which the
literal `cl` occurs in `s` (the lazy search of `[\w\W]+?` for the
closing delimiter). -/
def findFrom (cl s : List Char) : Nat → Nat → Option Nat
  | _, 0 => none
  | i, fuel + 1 => if litAt s i cl then some i else findFrom cl s (i + 1) fuel

/-- The smallest position `n ≥ 1` at which the closing delimiter occurs
in the text after an opening delimiter; `n ≥ 1` because the matcher's
capture group `([\w\W]+?)` requires at least one character. -/
def findCloseIdx (cl s : List Char) : Option Nat :=
  findFrom cl s 1 s.length

/-- One attempt of the compiled matcher at the start of `s`: when `s`
begins with the opening delimiter and a closing delimiter follows at
least one character later, return the captured inner text together with
the total number of characters consumed by the match. -/
def matchHere (op cl s : List Char) : Option (List Char × Nat) :=
  if litAt s 0 op then
    match findCloseIdx cl (s.drop op.length) with
    | some n => some ((s.drop op.length).take n, op.length + n + cl.length)
    | none => none
  else none

/-- The scan of `template.replace(pattern, cb)` with a global regex
(src/index.js line 35): at each position, splice in the callback result
for the leftmost match, or copy one character and move on.  A thrown
callback error aborts the whole call.  Fuel-indexed; each step consumes
at least one character, so fuel equal to the input length suffices. -/
def engineAux (cfg : Config) (data : JsVal) : Nat → List Char → Except JsErr (List Char)
  | _, [] => .ok []
  | 0, s => .ok s
  | fuel + 1, c :: tl =>
    match matchHere cfg.starting cfg.closing (c :: tl) with
    | some (inner, k) =>
      match processMatch cfg data inner with
      | .error e => .error e
      | .ok rep =>
        match engineAux cfg data fuel ((c :: tl).drop k) with
        | .error e => .error e
        | .ok rest => .ok (rep ++ rest)
    | none =>
      match engineAux cfg data fuel tl with
      | .error e => .error e
      | .ok rest => .ok (c :: rest)

/-- The inner texts of the placeholder spans the compiled matcher finds,
in order of appearance (the same scan as `engineAux`, recording the
captured groups instead of substituting). -/
def spansAux (op cl : List Char) : Nat → List Char → List (List Char)
  | _, [] => []
  | 0, _ => []
  | fuel + 1, c :: tl =>
    match matchHere op cl (c :: tl) with
    | some (inner, k) => inner :: spansAux op cl fuel ((c :: tl).drop k)
    | none => spansAux op cl fuel tl

/-- The placeholder spans of a template. -/
def spans (op cl s : List Char) : List (List Char) :=
  spansAux op cl s.length s

/-- The trimmed key of the first span whose resolved value is undefined,
if any. -/
def firstFailingKey (data : JsVal) : List (List Char) → Option (List Char)
  | [] => none
  | keyStr :: rest =>
    if isUndefined (resolvesVal data keyStr) then some (trimmedKeyOf keyStr)
    else firstFailingKey data rest

/-- `replace` applied to an already-validated string template. -/
def replaceStr (cfg : Config) (data : JsVal) (t : List Char) : Except JsErr (List Char) :=
  engineAux cfg data t.length t

/-- The method `Templatar.replace(template, data)` (src/index.js
lines 21-60): validate the argument types, then run the substitution
scan. -/
def replace (cfg : Config) (template data : JsVal) : Except JsErr (List Char) :=
  match template with
  | .str t =>
    if jsIsObject data then replaceStr cfg data t
    else .error .invalidData
  | _ => .error .invalidTemplate

/-- Does the literal pattern occur anywhere in `s`? -/
def occursIn (pat s : List Char) : Bool :=
  (List.range (s.length + 1)).any fun i => litAt s i pat

/-- The characters the escaper on src/index.js lines 31-32 prefixes with
a backslash: the regex metacharacters `.*+?^$\x7b\x7d()|[]\`. -/
def isRegexMeta (c : Char) : Bool :=
  c = '.' || c = '*' || c = '+' || c = '?' || c = '^' || c = '$' ||
  c = '{' || c = '}' || c = '(' || c = ')' || c = '|' || c = '[' ||
  c = ']' || c = '\\'

/-- `starting.replace(/[.*+?^$\x7b\x7d()|[\]\\]/g, '\\$&')`
(src/index.js lines 31-32): prefix every regex metacharacter with a
backslash. -/
def escapeRegex : List Char → List Char
  | [] => []
  | c :: rest => (if isRegexMeta c then ['\\', c] else [c]) ++ escapeRegex rest

/-- Interpretation of a regex fragment as a literal string, when it is
one: a backslash-escaped metacharacter denotes that character literally;
an unescaped non-metacharacter denotes itself; any unescaped
metacharacter (which would carry pattern meaning) or other escape makes
the fragment non-literal (`none`). -/
def litOfPattern : List Char → Option (List Char)
  | [] => some []
  | c :: rest =>
    if c = '\\' then
      match rest with
      | [] => none
      | c' :: rest' =>
        if isRegexMeta c' then (litOfPattern rest').map (fun l => c' :: l)
        else none
    else if isRegexMeta c then none
    else (litOfPattern rest).map (fun l => c :: l)

/-- The source text of the compiled regex (src/index.js line 33). -/
def compiledPattern (st cl : List Char) : List Char :=
  escapeRegex st ++ "([\\w\\W]+?)".data ++ escapeRegex cl

/-- Nested test objects for the inspect depth bound: `nestedObj n` is an
object chain `n` levels deep ending in the number 1. -/
def nestedObj : Nat → JsVal
  | 0 => .num 1
  | n + 1 => .obj [("a".data, nestedObj n)]

/-- A literal occurrence at position `i` fits inside the string. -/
theorem litAt_le {s : List Char} {i : Nat} {pat : List Char}
    (h : litAt s i pat = true) : pat.length ≤ s.length - i := by
  have h' : (s.drop i).take pat.length = pat := by simpa [litAt] using h
  have hlen := congrArg List.length h'
  simp only [List.length_take, List.length_drop] at hlen
  omega

/-- Soundness of the lazy search: a hit is the smallest position in the
searched window at which the closing delimiter occurs. -/
theorem findFrom_some {cl s : List Char} :
    ∀ {fuel i j : Nat}, findFrom cl s i fuel = some j →
      i ≤ j ∧ j < i + fuel ∧ litAt s j cl = true ∧
        ∀ m, i ≤ m → m < j → litAt s m cl = false := by
  intro fuel
  induction fuel with
  | zero => intro i j h; simp [findFrom] at h
  | succ n ih =>
    intro i j h
    simp only [findFrom] at h
    by_cases hl : litAt s i cl = true
    · rw [if_pos hl] at h
      injection h with h
      subst h
      exact ⟨le_refl _, by omega, hl, fun m h1 h2 => by omega⟩
    · rw [if_neg hl] at h
      obtain ⟨h1, h2, h3, h4⟩ := ih h
      refine ⟨by omega, by omega, h3, fun m hm1 hm2 => ?_⟩
      rcases Nat.eq_or_lt_of_le hm1 with he | hlt
      · subst he
        exact Bool.not_eq_true _ ▸ (by simpa using hl)
      · exact h4 m hlt hm2

/-- Completeness of the lazy search: when the delimiter occurs in the
window and nowhere earlier, the search returns exactly that position. -/
theorem findFrom_eq {cl s : List Char} :
    ∀ {fuel i j : Nat}, i ≤ j → j < i + fuel → litAt s j cl = true →
      (∀ m, i ≤ m → m < j → litAt s m cl = false) →
      findFrom cl s i fuel = some j := by
  intro fuel
  induction fuel with
  | zero => intro i j h1 h2 _ _; omega
  | succ n ih =>
    intro i j h1 h2 h3 h4
    simp only [findFrom]
    rcases Nat.eq_or_lt_of_le h1 with he | hlt
    · subst he
      rw [if_pos h3]
    · rw [if_neg (by simp [h4 i (le_refl i) hlt])]
      exact ih (by omega) (by omega) h3 (fun m hm1 hm2 => h4 m (by omega) hm2)

/-- The lazy search finds a hit whenever one exists in the window. -/
theorem findFrom_isSome {cl s : List Char} :
    ∀ {fuel i j : Nat}, i ≤ j → j < i + fuel → litAt s j cl = true →
      (findFrom cl s i fuel).isSome = true := by
  intro fuel
  induction fuel with
  | zero => intro i j h1 h2 _; omega
  | succ n ih =>
    intro i j h1 h2 h3
    simp only [findFrom]
    by_cases hl : litAt s i cl = true
    · rw [if_pos hl]; rfl
    · rw [if_neg hl]
      have : i ≠ j := fun he => hl (he ▸ h3)
      exact ih (j := j) (by omega) (by omega) h3

/-- A successful match consumes at least one and at most all characters
of the remaining input. -/
theorem matchHere_consumed {op cl s inner : List Char} {k : Nat}
    (h : matchHere op cl s = some (inner, k)) : 1 ≤ k ∧ k ≤ s.length := by
  unfold matchHere at h
  by_cases hop : litAt s 0 op = true
  · rw [if_pos hop] at h
    cases hf : findCloseIdx cl (s.drop op.length) with
    | none => rw [hf] at h; cases h
    | some n =>
      rw [hf] at h
      injection h with h
      have hk : k = op.length + n + cl.length := (Prod.mk.injEq _ _ _ _ ▸ h).2.symm
      obtain ⟨hn1, hn2, hn3, -⟩ := findFrom_some (by simpa [findCloseIdx] using hf)
      have hcl := litAt_le hn3
      have hop' := litAt_le hop
      simp only [List.length_drop] at hcl hn2
      omega
  · rw [if_neg hop] at h; cases h

/-- The capture group `([\w\W]+?)` is non-empty: every successful match
has at least one character of inner text. -/
theorem matchHere_inner_length {op cl s inner : List Char} {k : Nat}
    (hcl : cl ≠ []) (h : matchHere op cl s = some (inner, k)) :
    1 ≤ inner.length := by
  unfold matchHere at h
  by_cases hop : litAt s 0 op = true
  · rw [if_pos hop] at h
    cases hf : findCloseIdx cl (s.drop op.length) with
    | none => rw [hf] at h; cases h
    | some n =>
      rw [hf] at h
      injection h with h
      have hinner : (s.drop op.length).take n = inner := (Prod.mk.injEq _ _ _ _ ▸ h).1
      obtain ⟨hn1, hn2, hn3, -⟩ := findFrom_some (by simpa [findCloseIdx] using hf)
      have hle := litAt_le hn3
      have hclpos : 1 ≤ cl.length := List.length_pos.mpr hcl
      have := congrArg List.length hinner
      simp only [List.length_take] at this
      omega
  · rw [if_neg hop] at h; cases h

/-- The matcher at the head of `op ++ inner ++ cl` captures exactly
`inner` and consumes the whole string, provided no earlier occurrence of
the closing delimiter cuts the inner text short. -/
theorem matchHere_exact (op cl inner : List Char) (hne : inner ≠ [])
    (h : ∀ n, 1 ≤ n → n < inner.length → litAt (inner ++ cl) n cl = false) :
    matchHere op cl (op ++ (inner ++ cl)) =
      some (inner, op.length + inner.length + cl.length) := by
  have hop : litAt (op ++ (inner ++ cl)) 0 op = true := by
    simp [litAt, List.take_left]
  have hdrop : (op ++ (inner ++ cl)).drop op.length = inner ++ cl :=
    List.drop_left _ _
  have hlit : litAt (inner ++ cl) inner.length cl = true := by
    simp [litAt, List.drop_left, List.take_length]
  have hfc : findCloseIdx cl (inner ++ cl) = some inner.length := by
    unfold findCloseIdx
    refine findFrom_eq (List.length_pos.mpr hne) ?_ hlit (fun m hm1 hm2 => h m hm1 hm2)
    simp only [List.length_append]
    omega
  unfold matchHere
  rw [if_pos hop, hdrop, hfc]
  simp [List.take_left]

/-- The callback throws exactly the missing-key error of the trimmed key
when the resolved value is undefined and `ignoreMissing` is off. -/
theorem processMatch_error {cfg : Config} {data : JsVal} {keyStr : List Char}
    (him : cfg.ignoreMissing = false)
    (hu : isUndefined (resolvesVal data keyStr) = true) :
    processMatch cfg data keyStr = .error (.missingKey (trimmedKeyOf keyStr)) := by
  simp [processMatch, him, hu]

/-- The callback succeeds, with the normalized value handed to the
transform hook, whenever the resolved value is defined or
`ignoreMissing` is on. -/
theorem processMatch_ok {cfg : Config} {data : JsVal} {keyStr : List Char}
    (h : isUndefined (resolvesVal data keyStr) = false ∨ cfg.ignoreMissing = true) :
    processMatch cfg data keyStr =
      .ok (jsStringCoerce (cfg.transform
        ⟨.str (normalizeValue (resolvesVal data keyStr)),
          defaultOf keyStr, trimmedKeyOf keyStr⟩)) := by
  rcases h with h | h <;> simp [processMatch, h]

/-- With `ignoreMissing` off, the scan returns exactly the missing-key
error of the first span whose resolved value is undefined. -/
theorem engineAux_error_of_firstFailing {cfg : Config} {data : JsVal}
    (him : cfg.ignoreMissing = false) :
    ∀ (fuel : Nat) (s key : List Char), s.length ≤ fuel →
      firstFailingKey data (spansAux cfg.starting cfg.closing fuel s) = some key →
      engineAux cfg data fuel s = .error (.missingKey key) := by
  intro fuel
  induction fuel with
  | zero =>
    intro s key hl hf
    have : s = [] := List.eq_nil_of_length_eq_zero (by omega)
    subst this
    simp [spansAux, firstFailingKey] at hf
  | succ n ih =>
    intro s key hl hf
    cases s with
    | nil => simp [spansAux, firstFailingKey] at hf
    | cons c tl =>
      cases hm : matchHere cfg.starting cfg.closing (c :: tl) with
      | none =>
        simp only [spansAux, hm] at hf
        simp only [engineAux, hm]
        rw [ih tl key (by simpa using Nat.le_of_succ_le_succ hl) hf]
      | some p =>
        obtain ⟨inner, k⟩ := p
        simp only [spansAux, hm] at hf
        simp only [engineAux, hm]
        simp only [firstFailingKey] at hf
        by_cases hu : isUndefined (resolvesVal data inner) = true
        · rw [if_pos hu] at hf
          injection hf with hf
          rw [processMatch_error him hu, hf]
        · rw [if_neg hu] at hf
          rw [processMatch_ok (Or.inl (by simpa using hu))]
          obtain ⟨hk1, hk2⟩ := matchHere_consumed hm
          have hlen : ((c :: tl).drop k).length ≤ n := by
            simp only [List.length_drop, List.length_cons]
            simp only [List.length_cons] at hl hk2
            omega
          rw [ih _ key hlen hf]

/-- With `ignoreMissing` off and no failing span, the scan succeeds. -/
theorem engineAux_ok_of_noFailing {cfg : Config} {data : JsVal} :
    ∀ (fuel : Nat) (s : List Char), s.length ≤ fuel →
      firstFailingKey data (spansAux cfg.starting cfg.closing fuel s) = none →
      ∃ out, engineAux cfg data fuel s = .ok out := by
  intro fuel
  induction fuel with
  | zero =>
    intro s hl _
    have : s = [] := List.eq_nil_of_length_eq_zero (by omega)
    subst this
    exact ⟨[], rfl⟩
  | succ n ih =>
    intro s hl hf
    cases s with
    | nil => exact ⟨[], rfl⟩
    | cons c tl =>
      cases hm : matchHere cfg.starting cfg.closing (c :: tl) with
      | none =>
        simp only [spansAux, hm] at hf
        obtain ⟨out, ho⟩ := ih tl (by simpa using Nat.le_of_succ_le_succ hl) hf
        exact ⟨c :: out, by simp only [engineAux, hm]; rw [ho]⟩
      | some p =>
        obtain ⟨inner, k⟩ := p
        simp only [spansAux, hm, firstFailingKey] at hf
        by_cases hu : isUndefined (resolvesVal data inner) = true
        · rw [if_pos hu] at hf; cases hf
        · rw [if_neg hu] at hf
          obtain ⟨hk1, hk2⟩ := matchHere_consumed hm
          have hlen : ((c :: tl).drop k).length ≤ n := by
            simp only [List.length_drop, List.length_cons]
            simp only [List.length_cons] at hl hk2
            omega
          obtain ⟨out, ho⟩ := ih _ hlen hf
          refine ⟨jsStringCoerce (cfg.transform
            ⟨.str (normalizeValue (resolvesVal data inner)),
              defaultOf inner, trimmedKeyOf inner⟩) ++ out, ?_⟩
          simp only [engineAux, hm]
          rw [processMatch_ok (Or.inl (by simpa using hu)), ho]

/-- With `ignoreMissing` on, the scan always succeeds. -/
theorem engineAux_ok_of_ignoreMissing {cfg : Config} {data : JsVal}
    (him : cfg.ignoreMissing = true) :
    ∀ (fuel : Nat) (s : List Char), ∃ out, engineAux cfg data fuel s = .ok out := by
  intro fuel
  induction fuel with
  | zero =>
    intro s
    cases s with
    | nil => exact ⟨[], rfl⟩
    | cons c tl => exact ⟨c :: tl, rfl⟩
  | succ n ih =>
    intro s
    cases s with
    | nil => exact ⟨[], rfl⟩
    | cons c tl =>
      cases hm : matchHere cfg.starting cfg.closing (c :: tl) with
      | none =>
        obtain ⟨out, ho⟩ := ih tl
        exact ⟨c :: out, by simp only [engineAux, hm]; rw [ho]⟩
      | some p =>
        obtain ⟨inner, k⟩ := p
        obtain ⟨out, ho⟩ := ih ((c :: tl).drop k)
        refine ⟨jsStringCoerce (cfg.transform
          ⟨.str (normalizeValue (resolvesVal data inner)),
            defaultOf inner, trimmedKeyOf inner⟩) ++ out, ?_⟩
        simp only [engineAux, hm]
        rw [processMatch_ok (Or.inr him), ho]

/-- A template in which the matcher finds no span is returned unchanged. -/
theorem engineAux_eq_self_of_no_spans {cfg : Config} {data : JsVal} :
    ∀ (fuel : Nat) (s : List Char), s.length ≤ fuel →
      spansAux cfg.starting cfg.closing fuel s = [] →
      engineAux cfg data fuel s = .ok s := by
  intro fuel
  induction fuel with
  | zero =>
    intro s hl _
    have : s = [] := List.eq_nil_of_length_eq_zero (by omega)
    subst this
    rfl
  | succ n ih =>
    intro s hl hs
    cases s with
    | nil => rfl
    | cons c tl =>
      cases hm : matchHere cfg.starting cfg.closing (c :: tl) with
      | none =>
        simp only [spansAux, hm] at hs
        simp only [engineAux, hm]
        rw [ih tl (by simpa using Nat.le_of_succ_le_succ hl) hs]
      | some p =>
        simp only [spansAux, hm] at hs
        cases hs

/-- A match that consumes the whole remaining input makes the scan
return exactly the callback's answer for it. -/
theorem engineAux_whole {cfg : Config} {data : JsVal} (s inner : List Char)
    (fuel : Nat) (hlen : s.length ≤ fuel) (hs : s ≠ [])
    (hm : matchHere cfg.starting cfg.closing s = some (inner, s.length)) :
    engineAux cfg data fuel s =
      match processMatch cfg data inner with
      | .error e => .error e
      | .ok rep => .ok rep := by
  cases s with
  | nil => exact absurd rfl hs
  | cons c tl =>
    cases fuel with
    | zero => simp at hlen
    | succ n =>
      simp only [engineAux, hm]
      rw [List.drop_length]
      cases processMatch cfg data inner with
      | error e => rfl
      | ok rep => simp [engineAux]

/-- The escaper turns any string into a regex fragment denoting exactly
that string literally. -/
theorem litOfPattern_escapeRegex : ∀ s : List Char,
    litOfPattern (escapeRegex s) = some s := by
  intro s
  induction s with
  | nil => rfl
  | cons c rest ih =>
    by_cases hm : isRegexMeta c = true
    · simp [escapeRegex, hm, litOfPattern, ih]
    · have hb : c ≠ '\\' := by
        intro h
        subst h
        simp [isRegexMeta] at hm
      have he : escapeRegex (c :: rest) = c :: escapeRegex rest := by
        simp [escapeRegex, hm]
      rw [he, litOfPattern.eq_def]
      simp only []
      rw [if_neg hb, if_neg hm, ih]
      rfl

/-- A string free of `|` followed by `||` splits exactly at that
separator. -/
theorem splitFirstBars_append (r : List Char) :
    ∀ a : List Char, '|' ∉ a →
      splitFirstBars (a ++ '|' :: '|' :: r) = some (a, r) := by
  intro a
  induction a with
  | nil => intro _; simp [splitFirstBars]
  | cons x a' ih =>
    intro ha
    have hx : x ≠ '|' := fun h => ha (h ▸ List.mem_cons_self _ _)
    have ha' : '|' ∉ a' := fun h => ha (List.mem_cons_of_mem _ h)
    cases a' with
    | nil => simp [splitFirstBars, hx]
    | cons y a'' =>
      simp only [List.cons_append]
      rw [splitFirstBars]
      rw [if_neg (by simp [hx])]
      rw [← List.cons_append, ih ha']
      rfl

/-- Only the value `undefined` satisfies the `=== undefined` test. -/
theorem isUndefined_eq {v : JsVal} (h : isUndefined v = true) : v = .undefined := by
  cases v <;> simp [isUndefined] at h ⊢

/-- On a string template and valid data, `replace` is the scan with fuel
equal to the template length. -/
theorem replace_str {cfg : Config} {data : JsVal} (t : List Char)
    (hd : jsIsObject data = true) :
    replace cfg (.str t) data = engineAux cfg data t.length t := by
  simp [replace, hd, replaceStr]

/-- The compiled matcher succeeds exactly on literal occurrences of the
delimiters: an opening-delimiter occurrence at the start and a
closing-delimiter occurrence at least one character later. -/
theorem matchHere_isSome_iff {op cl : List Char} (hcl : cl ≠ []) (s : List Char) :
    (matchHere op cl s).isSome = true ↔
      (litAt s 0 op = true ∧
        ∃ n, 1 ≤ n ∧ litAt (s.drop op.length) n cl = true) := by
  constructor
  · intro h
    unfold matchHere at h
    by_cases hop : litAt s 0 op = true
    · rw [if_pos hop] at h
      cases hf : findCloseIdx cl (s.drop op.length) with
      | none => rw [hf] at h; simp at h
      | some n =>
        obtain ⟨hn1, -, hn3, -⟩ := findFrom_some (by simpa [findCloseIdx] using hf)
        exact ⟨hop, n, hn1, hn3⟩
    · rw [if_neg hop] at h; simp at h
  · rintro ⟨hop, n, hn1, hnl⟩
    unfold matchHere
    rw [if_pos hop]
    have hb := litAt_le hnl
    have hclpos : 1 ≤ cl.length := List.length_pos.mpr hcl
    have hs : (findCloseIdx cl (s.drop op.length)).isSome = true := by
      unfold findCloseIdx
      exact findFrom_isSome hn1 (by omega) hnl
    cases hf : findCloseIdx cl (s.drop op.length) with
    | none => rw [hf] at hs; simp at hs
    | some m => rfl

/-- C1 counterexample: with data `{}` and placeholder `<('x||b||c')>`
between the default delimiters, the code substitutes only `b` — the text
between the first and second `||` — not the entire remainder `b||c` the
claim requires, because JavaScript `split('||')` cuts at every
occurrence. -/
theorem claim1_counterexample :
    replace defaultConfig
        (.str ['<', '{', 'x', '|', '|', 'b', '|', '|', 'c', '}', '>'])
        (.obj []) = .ok ['b'] ∧
      (['b'] : List Char) ≠ ['b', '|', '|', 'c'] :=
  ⟨rfl, by decide⟩

/-- C1 (amended): `replace` splits the raw key expression at every
occurrence of `||`: the key is the text before the first occurrence, and
the default expression is only the text between the first and second
occurrences; any text after a second `||` is discarded. -/
theorem claim1_amended (a b c : List Char) (ha : '|' ∉ a) (hb : '|' ∉ b) :
    parseKeyDefault (a ++ '|' :: '|' :: (b ++ '|' :: '|' :: c)) = (a, some b) := by
  unfold parseKeyDefault
  rw [splitFirstBars_append _ a ha]
  simp only []
  rw [splitFirstBars_append _ b hb]

/-- Witness for the amended C1 at `x||y||z`. -/
theorem claim1_amended_witness :
    ('|' ∉ (['x'] : List Char)) ∧ ('|' ∉ (['y'] : List Char)) ∧
      parseKeyDefault (['x'] ++ '|' :: '|' :: (['y'] ++ '|' :: '|' :: ['z'])) =
        (['x'], some ['y']) :=
  ⟨by decide, by decide, claim1_amended ['x'] ['y'] ['z'] (by decide) (by decide)⟩

/-- C2: with valid data, `replace` returns the missing-key error naming
key `k` exactly when `ignoreMissing` is off and the first span whose
resolved value is undefined (no data entry and no default) has trimmed
key `k`; when no span fails, or when `ignoreMissing` is on, the call
succeeds with some output and no error is raised; and under
`ignoreMissing` a failing span still reaches the transform hook, which
receives the canonical text of the undefined value. -/
theorem claim2_missing_key (cfg : Config) (t : List Char) (data : JsVal)
    (hd : jsIsObject data = true) :
    (cfg.ignoreMissing = false →
      ∀ key, (replace cfg (.str t) data = .error (.missingKey key) ↔
        firstFailingKey data (spans cfg.starting cfg.closing t) = some key)) ∧
    (cfg.ignoreMissing = false →
      firstFailingKey data (spans cfg.starting cfg.closing t) = none →
      ∃ out, replace cfg (.str t) data = .ok out) ∧
    (cfg.ignoreMissing = true → ∃ out, replace cfg (.str t) data = .ok out) ∧
    (cfg.ignoreMissing = true →
      ∀ keyStr, isUndefined (resolvesVal data keyStr) = true →
        processMatch cfg data keyStr = .ok (jsStringCoerce (cfg.transform
          ⟨.str "undefined".data, defaultOf keyStr, trimmedKeyOf keyStr⟩))) := by
  refine ⟨?_, ?_, ?_, ?_⟩
  · intro him key
    rw [replace_str _ hd]
    constructor
    · intro h
      cases hff : firstFailingKey data (spans cfg.starting cfg.closing t) with
      | none =>
        obtain ⟨out, ho⟩ := engineAux_ok_of_noFailing t.length t (le_refl _) hff
        rw [ho] at h
        cases h
      | some k' =>
        have he := engineAux_error_of_firstFailing him t.length t k' (le_refl _) hff
        rw [he] at h
        injection h with h
        injection h with h
        rw [h]
    · intro hff
      exact engineAux_error_of_firstFailing him t.length t key (le_refl _) hff
  · intro _ hff
    rw [replace_str _ hd]
    exact engineAux_ok_of_noFailing t.length t (le_refl _) hff
  · intro him
    rw [replace_str _ hd]
    exact engineAux_ok_of_ignoreMissing him t.length t
  · intro him keyStr hu
    rw [processMatch_ok (Or.inr him), isUndefined_eq hu]
    rfl

/-- Witness for C2 at template `<('m')>` with empty data. -/
theorem claim2_witness :
    jsIsObject (JsVal.obj []) = true ∧
      replace defaultConfig (.str ['<', '{', 'm', '}', '>']) (.obj []) =
        .error (.missingKey ['m']) :=
  ⟨rfl,
    ((claim2_missing_key defaultConfig ['<', '{', 'm', '}', '>'] (.obj []) rfl).1
      rfl ['m']).mpr rfl⟩

/-- C3: `replace` raises the invalid-template error whenever the
template argument is not a string, and — once the template is a string —
raises the invalid-data error whenever the data argument is null or not
an associative structure (not of JavaScript typeof `object`); both
produce no output. -/
theorem claim3_type_errors (cfg : Config) (template data : JsVal) :
    (isStr template = false →
      replace cfg template data = .error .invalidTemplate) ∧
    (isStr template = true → jsIsObject data = false →
      replace cfg template data = .error .invalidData) := by
  constructor
  · intro h
    cases template <;> first | rfl | simp [isStr] at h
  · intro h1 h2
    cases template <;> simp [isStr] at h1
    simp [replace, h2]

/-- Witness for C3 at `replace(42, obj)` and `replace('x', null)`. -/
theorem claim3_witness :
    (isStr (JsVal.num 42) = false ∧
      replace defaultConfig (.num 42) (.obj []) = .error .invalidTemplate) ∧
    (isStr (JsVal.str ['x']) = true ∧ jsIsObject JsVal.null = false ∧
      replace defaultConfig (.str ['x']) .null = .error .invalidData) :=
  ⟨⟨rfl, (claim3_type_errors defaultConfig (.num 42) (.obj [])).1 rfl⟩,
    ⟨rfl, rfl, (claim3_type_errors defaultConfig (.str ['x']) .null).2 rfl rfl⟩⟩

/-- C4: for every configured delimiter pair, the escaper compiles each
delimiter into a pattern fragment denoting exactly that string as
literal text (even when it contains regex metacharacters), and the
compiled matcher succeeds precisely on a literal occurrence of the
starting delimiter followed, at least one character later, by a literal
occurrence of the closing delimiter — the same criterion the default
delimiters obey. -/
theorem claim4_literal_delimiters (st cl : List Char) (hcl : cl ≠ []) :
    litOfPattern (escapeRegex st) = some st ∧
    litOfPattern (escapeRegex cl) = some cl ∧
    ∀ s : List Char, (matchHere st cl s).isSome = true ↔
      (litAt s 0 st = true ∧
        ∃ n, 1 ≤ n ∧ litAt (s.drop st.length) n cl = true) :=
  ⟨litOfPattern_escapeRegex st, litOfPattern_escapeRegex cl,
    fun s => matchHere_isSome_iff hcl s⟩

/-- Witness for C4 with the metacharacter delimiters of the claim's own
example and the span `a`. -/
theorem claim4_witness :
    ((['}', '}'] : List Char) ≠ []) ∧
      litOfPattern (escapeRegex ['{', '{']) = some ['{', '{'] ∧
      (matchHere ['{', '{'] ['}', '}'] ['{', '{', 'a', '}', '}']).isSome = true :=
  ⟨by decide,
    (claim4_literal_delimiters ['{', '{'] ['}', '}'] (by decide)).1,
    ((claim4_literal_delimiters ['{', '{'] ['}', '}'] (by decide)).2.2
      ['{', '{', 'a', '}', '}']).mpr ⟨by decide, 1, by decide, by decide⟩⟩

/-- C5: a single placeholder `key||D` between the default delimiters
whose key does not resolve substitutes the default expression `D`
verbatim — every character of `D`, including leading, trailing and
internal whitespace and newlines, is preserved and only the key side is
trimmed.  The hypotheses pin down the claim's span shape: the raw
expression parses as `key` with default `D`, and no earlier
closing-delimiter occurrence cuts the span short. -/
theorem claim5_default_verbatim (key D : List Char) (data : JsVal)
    (hd : jsIsObject data = true)
    (hparse : parseKeyDefault (key ++ '|' :: '|' :: D) = (key, some D))
    (hmiss : getPath data (splitDots (jsTrim key)) = .undefined)
    (hclose : ∀ n, n < (key ++ '|' :: '|' :: D).length → 1 ≤ n →
      litAt ((key ++ '|' :: '|' :: D) ++ ['}', '>']) n ['}', '>'] = false) :
    replace defaultConfig
      (.str (['<', '{'] ++ (key ++ '|' :: '|' :: D) ++ ['}', '>'])) data =
      .ok D := by
  have hne : key ++ '|' :: '|' :: D ≠ [] := by cases key <;> simp
  have hm := matchHere_exact ['<', '{'] ['}', '>'] (key ++ '|' :: '|' :: D) hne
    (fun n h1 h2 => hclose n h2 h1)
  rw [replace_str _ hd, List.append_assoc]
  have hm' : matchHere defaultConfig.starting defaultConfig.closing
      (['<', '{'] ++ ((key ++ '|' :: '|' :: D) ++ ['}', '>'])) =
      some (key ++ '|' :: '|' :: D,
        (['<', '{'] ++ ((key ++ '|' :: '|' :: D) ++ ['}', '>'])).length) := by
    rw [show (['<', '{'] ++ ((key ++ '|' :: '|' :: D) ++ ['}', '>'])).length =
        (['<', '{'] : List Char).length + (key ++ '|' :: '|' :: D).length +
          (['}', '>'] : List Char).length from by
      simp [List.length_append]
      omega]
    exact hm
  rw [engineAux_whole _ _ _ (le_refl _) (by simp) hm']
  have hres : resolvesVal data (key ++ '|' :: '|' :: D) = .str D := by
    simp [resolvesVal, trimmedKeyOf, defaultOf, hparse, getProperty, hmiss]
  rw [processMatch_ok (Or.inl (by rw [hres]; rfl))]
  rw [hres]
  rfl

/-- Witness for C5 at key `m`, default `' X'` followed by a newline and
a space, with empty data. -/
theorem claim5_witness :
    jsIsObject (JsVal.obj []) = true ∧
      parseKeyDefault (['m'] ++ '|' :: '|' :: [' ', 'X', '\n', ' ']) =
        (['m'], some [' ', 'X', '\n', ' ']) ∧
      getPath (JsVal.obj []) (splitDots (jsTrim ['m'])) = .undefined ∧
      replace defaultConfig
        (.str (['<', '{'] ++ (['m'] ++ '|' :: '|' :: [' ', 'X', '\n', ' ']) ++
          ['}', '>'])) (.obj []) = .ok [' ', 'X', '\n', ' '] :=
  ⟨rfl, rfl, rfl,
    claim5_default_verbatim ['m'] [' ', 'X', '\n', ' '] (.obj []) rfl rfl rfl
      (by decide)⟩

/-- C6: the value handed to the transform hook is normalized so that
objects and arrays are rendered by the bounded inspect-style dump at
depth 4, strings pass through unchanged, and every other value takes
its canonical scalar text — numbers in decimal, booleans as
`true`/`false`, null as `null`, undefined as `undefined`; the two
concrete conjuncts exhibit the depth bound: five levels of nesting
truncate to `[Object]`, four levels print in full. -/
theorem claim6_normalization :
    (∀ fs, normalizeValue (JsVal.obj fs) = inspectVal 4 (JsVal.obj fs)) ∧
    (∀ xs, normalizeValue (JsVal.arr xs) = inspectVal 4 (JsVal.arr xs)) ∧
    (∀ s, normalizeValue (JsVal.str s) = s) ∧
    (∀ n : Int, normalizeValue (JsVal.num n) = (toString n).data) ∧
    (∀ b : Bool,
      normalizeValue (JsVal.bool b) =
        (if b then "true".data else "false".data)) ∧
    normalizeValue JsVal.null = "null".data ∧
    normalizeValue JsVal.undefined = "undefined".data ∧
    occursIn "[Object]".data (normalizeValue (nestedObj 5)) = true ∧
    occursIn "[Object]".data (normalizeValue (nestedObj 4)) = false :=
  ⟨fun _ => rfl, fun _ => rfl, fun _ => rfl, fun _ => rfl, fun _ => rfl,
    rfl, rfl, by decide, by decide⟩

/-- C7: dotted-path lookup reaches nested structure: with
`data = (a: (b: 5))` the template `<('a.b')>` under the default
configuration yields the string `5`. -/
theorem claim7_dotted_path :
    replace defaultConfig (.str ['<', '{', 'a', '.', 'b', '}', '>'])
      (.obj [(['a'], .obj [(['b'], .num 5)])]) = .ok ['5'] := rfl

/-- C8: a template in which the compiled matcher recognizes no
placeholder span is returned unchanged, character for character, for
every valid data object. -/
theorem claim8_no_spans_identity (cfg : Config) (t : List Char) (data : JsVal)
    (hd : jsIsObject data = true)
    (hs : spans cfg.starting cfg.closing t = []) :
    replace cfg (.str t) data = .ok t := by
  rw [replace_str _ hd]
  exact engineAux_eq_self_of_no_spans t.length t (le_refl _) hs

/-- Witness for C8 at a whitespace-bearing template with no spans. -/
theorem claim8_witness :
    jsIsObject (JsVal.obj []) = true ∧
      spans defaultConfig.starting defaultConfig.closing "hello world\n".data = [] ∧
      replace defaultConfig (.str "hello world\n".data) (.obj []) =
        .ok "hello world\n".data :=
  ⟨rfl, rfl, claim8_no_spans_identity defaultConfig "hello world\n".data (.obj []) rfl rfl⟩

/-- C9: substitution is one flat pass: a resolved value that itself
contains delimiter-like text is spliced in literally (the first call
returns the placeholder-shaped text `<('b')>` untouched rather than its
expansion `B`), and re-running `replace` on that output changes it, so
`replace` is not idempotent on its own output. -/
theorem claim9_no_rescan :
    replace defaultConfig (.str ['<', '{', 'a', '}', '>'])
        (.obj [(['a'], .str ['<', '{', 'b', '}', '>']), (['b'], .str ['B'])]) =
      .ok ['<', '{', 'b', '}', '>'] ∧
    replace defaultConfig (.str ['<', '{', 'b', '}', '>'])
        (.obj [(['a'], .str ['<', '{', 'b', '}', '>']), (['b'], .str ['B'])]) =
      .ok ['B'] ∧
    (['<', '{', 'b', '}', '>'] : List Char) ≠ ['B'] :=
  ⟨rfl, rfl, by decide⟩

/-- C10 counterexample: in the template `<(')>a||D')>` the occurrence of
the starting delimiter immediately followed by the closing delimiter is
not left unchanged: it is absorbed into the longer span with inner text
`)>a||D` (the matcher's lazy group skips past the adjacent closing
delimiter), and with empty data the whole span is replaced by the
default `D`. -/
theorem claim10_counterexample :
    replace defaultConfig
        (.str ['<', '{', '}', '>', 'a', '|', '|', 'D', '}', '>'])
        (.obj []) = .ok ['D'] ∧
      occursIn ['<', '{', '}', '>'] ['D'] = false :=
  ⟨rfl, by decide⟩

/-- C10 (amended): the compiled matcher never matches a span with empty
inner text — every successful match captures at least one character — so
an occurrence of starting delimiter immediately followed by closing
delimiter is never matched as a placeholder by itself; when no further
closing-delimiter occurrence follows (as in the bare template `<('')>`),
the occurrence is left unchanged, but it can be absorbed into a longer
span when one does. -/
theorem claim10_amended :
    (∀ (op cl s inner : List Char) (k : Nat), cl ≠ [] →
        matchHere op cl s = some (inner, k) → 1 ≤ inner.length) ∧
      replace defaultConfig (.str ['<', '{', '}', '>']) (.obj []) =
        .ok ['<', '{', '}', '>'] :=
  ⟨fun _ _ _ _ _ hcl hm => matchHere_inner_length hcl hm, rfl⟩

/-- Witness for the amended C10: the default-delimiter match on
`<('a')>` captures the one-character inner text `a`. -/
theorem claim10_amended_witness :
    ((['}', '>'] : List Char) ≠ []) ∧
      matchHere ['<', '{'] ['}', '>'] ['<', '{', 'a', '}', '>'] =
        some (['a'], 5) ∧
      1 ≤ (['a'] : List Char).length :=
  ⟨by decide, rfl,
    claim10_amended.1 ['<', '{'] ['}', '>'] ['<', '{', 'a', '}', '>'] ['a'] 5
      (by decide) rfl⟩

end Templatar
